import Mathlib

/-!
# Ring buffer of `Src/ring_buffer.c`

A shallow embedding of the circular byte buffer and proofs of its
specification.

Modelling conventions.

* `uint8_t` values are elements of `Fin 256`; the code never does arithmetic
  on them.
* `uint16_t` fields (`head`, `tail`, `capacity`) are natural numbers.  A value
  computed by the code and assigned to such a field is reduced `% 65536`.
  Operands are promoted to `int` (32 bits on the target) before `+`, `-`, `%`,
  so intermediate results never wrap.
* The storage behind `rb->buffer` is a list of bytes.  An access outside the
  list and a remainder by zero are undefined behaviour in C: the operations
  that can reach them return `Option`, with `none` for undefined behaviour.
* `ring_buffer_read` gets the byte that `*data` holds before the call and
  returns the byte it holds after the call.
-/

namespace RingBuffer

/-- A `uint8_t` value. -/
abbrev Byte := Fin 256

/-- The struct `ring_buffer_t` that `ring_buffer.c` works on: the storage
behind the pointer `buffer`, the indices `head` and `tail`, the `capacity`
and the flag `is_full`. -/
structure ring_buffer_t where
  buffer : List Byte
  head : Nat
  tail : Nat
  capacity : Nat
  is_full : Bool
deriving DecidableEq, Repr

/-- The C expression `(i + 1) % capacity` assigned to a `uint16_t`:
undefined when `capacity` is zero. -/
def advance (i capacity : Nat) : Option Nat :=
  if capacity = 0 then none else some ((i + 1) % capacity % 65536)

/-- The C statement `buffer[i] = data`: undefined outside the storage. -/
def store (buffer : List Byte) (i : Nat) (data : Byte) : Option (List Byte) :=
  if i < buffer.length then some (buffer.set i data) else none

/-- The C expression `buffer[i]`: undefined outside the storage. -/
def load (buffer : List Byte) (i : Nat) : Option Byte :=
  buffer[i]?

/-- Embedding of `ring_buffer_init`: the five field assignments. -/
def ring_buffer_init (rb : ring_buffer_t) (buffer : List Byte) (capacity : Nat) :
    ring_buffer_t :=
  { rb with buffer := buffer, head := 0, tail := 0, capacity := capacity, is_full := false }

/-- Embedding of `ring_buffer_write`: returns the new struct and the `bool`
result. -/
def ring_buffer_write (rb : ring_buffer_t) (data : Byte) : Option (ring_buffer_t × Bool) := do
  -- if (rb->is_full) rb->tail = (rb->tail + 1) % rb->capacity;
  let tail ← if rb.is_full then advance rb.tail rb.capacity else pure rb.tail
  -- rb->buffer[rb->head] = data;
  let buffer ← store rb.buffer rb.head data
  -- rb->head = (rb->head + 1) % rb->capacity;
  let head ← advance rb.head rb.capacity
  -- if (rb->head == rb->tail) rb->is_full = true;
  let is_full := if head = tail then true else rb.is_full
  -- return true;
  pure ({ buffer := buffer, head := head, tail := tail, capacity := rb.capacity,
          is_full := is_full }, true)

/-- Embedding of `ring_buffer_read`: `data` is the byte behind the output
pointer before the call; the result is the new struct, the byte behind the
output pointer after the call, and the `bool` result. -/
def ring_buffer_read (rb : ring_buffer_t) (data : Byte) :
    Option (ring_buffer_t × Byte × Bool) :=
  -- if (rb->head == rb->tail && !rb->is_full) return false;
  if rb.head == rb.tail && !rb.is_full then
    some (rb, data, false)
  else do
    -- *data = rb->buffer[rb->tail];
    let d ← load rb.buffer rb.tail
    -- rb->tail = (rb->tail + 1) % rb->capacity;
    let tail ← advance rb.tail rb.capacity
    -- rb->is_full = false; return true;
    pure ({ rb with tail := tail, is_full := false }, d, true)

/-- Embedding of `ring_buffer_count`: the `uint16_t` result.  The two
subtractions are done in `int` and converted to `uint16_t`. -/
def ring_buffer_count (rb : ring_buffer_t) : Nat :=
  if rb.is_full then rb.capacity
  else if rb.head ≥ rb.tail then
    (((rb.head : Int) - (rb.tail : Int)) % 65536).toNat
  else
    (((rb.capacity : Int) - (rb.tail : Int) + (rb.head : Int)) % 65536).toNat

/-- Embedding of `ring_buffer_is_empty`. -/
def ring_buffer_is_empty (rb : ring_buffer_t) : Bool :=
  rb.head == rb.tail && !rb.is_full

/-- Embedding of `ring_buffer_is_full`. -/
def ring_buffer_is_full (rb : ring_buffer_t) : Bool :=
  rb.is_full

/-- Embedding of `ring_buffer_flush`: the three field assignments. -/
def ring_buffer_flush (rb : ring_buffer_t) : ring_buffer_t :=
  { rb with head := 0, tail := 0, is_full := false }

/-- The data-model invariant of the spec: a capacity that a `uint16_t` holds
and that is not zero, both indices below it, the flag only set where the
indices meet, and a storage as long as the capacity. -/
def WellFormed (s : ring_buffer_t) : Prop :=
  0 < s.capacity ∧ s.capacity ≤ 65535 ∧ s.head < s.capacity ∧ s.tail < s.capacity ∧
    (s.is_full = true → s.head = s.tail) ∧ s.buffer.length = s.capacity

instance : DecidablePred WellFormed := fun s => by
  unfold WellFormed
  infer_instance

/-- The byte `i` places after the read index, wrapping at the capacity. -/
def slot (s : ring_buffer_t) (i : Nat) : Byte :=
  (s.buffer[(s.tail + i) % s.capacity]?).getD 0

/-- The queue a state stands for: the `ring_buffer_count` bytes from the
read index on, oldest first. -/
def content (s : ring_buffer_t) : List Byte :=
  (List.range (ring_buffer_count s)).map (slot s)

/-- The struct that `ring_buffer_write` leaves behind when none of its steps
is undefined: the assignments of the source with `advance` and `store`
taken at their defined values. -/
def write_next (s : ring_buffer_t) (b : Byte) : ring_buffer_t :=
  { buffer := s.buffer.set s.head b
    head := (s.head + 1) % s.capacity
    tail := if s.is_full then (s.tail + 1) % s.capacity else s.tail
    capacity := s.capacity
    is_full :=
      if (s.head + 1) % s.capacity = (if s.is_full then (s.tail + 1) % s.capacity else s.tail)
      then true else s.is_full }

/-- The struct that a successful `ring_buffer_read` leaves behind when none
of its steps is undefined. -/
def read_next (s : ring_buffer_t) : ring_buffer_t :=
  { s with tail := (s.tail + 1) % s.capacity, is_full := false }

/-- The last `n` elements of a list (the whole list when it is shorter). -/
def keepLast (n : Nat) (l : List Byte) : List Byte :=
  l.drop (l.length - n)

/-- A caller that writes the bytes of a list one after the other with
`ring_buffer_write` and collects the return values. -/
def write_all (s : ring_buffer_t) : List Byte → Option (ring_buffer_t × List Bool)
  | [] => some (s, [])
  | b :: bs => do
    let r ← ring_buffer_write s b
    let rs ← write_all r.1 bs
    pure (rs.1, r.2 :: rs.2)

/-- A caller that calls `ring_buffer_read` `n` times on the same output
variable, which holds `d` at first, and collects each call's return value
and the output byte after the call. -/
def read_n (s : ring_buffer_t) (d : Byte) : Nat → Option (ring_buffer_t × List (Bool × Byte))
  | 0 => some (s, [])
  | n + 1 => do
    let r ← ring_buffer_read s d
    let rs ← read_n r.1 r.2.1 n
    pure (rs.1, (r.2.2, r.2.1) :: rs.2)

/-- The part of the data-model invariant that concerns the bookkeeping
fields only: a capacity that a `uint16_t` holds and that is not zero, both
indices below it, and the flag only set where the indices meet. -/
def IndexOk (s : ring_buffer_t) : Prop :=
  0 < s.capacity ∧ s.capacity ≤ 65535 ∧ s.head < s.capacity ∧ s.tail < s.capacity ∧
    (s.is_full = true → s.head = s.tail)

instance : DecidablePred IndexOk := fun s => by
  unfold IndexOk
  infer_instance

/-- A call a user of the buffer makes after `ring_buffer_init`: a write of a
byte, a read into an output variable that holds `d`, or a flush. -/
inductive Op where
  | write (b : Byte)
  | read (d : Byte)
  | flush
deriving DecidableEq, Repr

/-- The struct after one call, `none` when the call is undefined. -/
def apply_op (s : ring_buffer_t) : Op → Option ring_buffer_t
  | Op.write b => (ring_buffer_write s b).map fun r => r.1
  | Op.read d => (ring_buffer_read s d).map fun r => r.1
  | Op.flush => some (ring_buffer_flush s)

/-- The struct after a sequence of calls, `none` when one of them is
undefined. -/
def run (s : ring_buffer_t) : List Op → Option ring_buffer_t
  | [] => some s
  | op :: ops => (apply_op s op).bind fun s1 => run s1 ops

/-- The states reachable from `ring_buffer_init` on the storage `storage`
with capacity `N` by any sequence of write, read and flush. -/
def Reachable (storage : List Byte) (N : Nat) (s : ring_buffer_t) : Prop :=
  ∃ (rb : ring_buffer_t) (ops : List Op), run (ring_buffer_init rb storage N) ops = some s

/-! ## Arithmetic of the indices -/

theorem advance_eq {i capacity : Nat} (hc : 0 < capacity) (h16 : capacity ≤ 65535) :
    advance i capacity = some ((i + 1) % capacity) := by
  have hlt : (i + 1) % capacity < capacity := Nat.mod_lt _ hc
  unfold advance
  rw [if_neg (by omega), Nat.mod_eq_of_lt (show (i + 1) % capacity < 65536 by omega)]

theorem add_mod_wrap {t i capacity : Nat} (ht : t < capacity) (hi : i ≤ capacity) :
    (t + i) % capacity = if t + i < capacity then t + i else t + i - capacity := by
  split_ifs with h
  · exact Nat.mod_eq_of_lt h
  · rw [Nat.mod_eq_sub_mod (by omega), Nat.mod_eq_of_lt (by omega)]

/-! ## One call of write and of read -/

theorem write_defined (s : ring_buffer_t) (b : Byte) (hc : 0 < s.capacity)
    (h16 : s.capacity ≤ 65535) (hh : s.head < s.buffer.length) :
    ring_buffer_write s b = some (write_next s b, true) := by
  unfold ring_buffer_write write_next
  cases hf : s.is_full <;>
    simp [advance_eq hc h16, store, hh]

theorem read_defined (s : ring_buffer_t) (d : Byte) (hc : 0 < s.capacity)
    (h16 : s.capacity ≤ 65535) (ht : s.tail < s.buffer.length)
    (hne : ¬ (s.head = s.tail ∧ s.is_full = false)) :
    ring_buffer_read s d = some (read_next s, s.buffer[s.tail], true) := by
  unfold ring_buffer_read read_next
  have hcond : (s.head == s.tail && !s.is_full) = false := by
    cases hf : s.is_full <;> simp_all
  rw [hcond]
  simp [advance_eq hc h16, load, List.getElem?_eq_getElem ht]

/-! ## Well-formed states -/

theorem count_of_wf {s : ring_buffer_t} (h : WellFormed s) :
    ring_buffer_count s =
      if s.is_full = true then s.capacity
      else if s.tail ≤ s.head then s.head - s.tail
      else s.capacity - s.tail + s.head := by
  obtain ⟨hc, h16, hh, ht, -, -⟩ := h
  unfold ring_buffer_count
  split_ifs <;> omega

theorem count_le_of_wf {s : ring_buffer_t} (h : WellFormed s) :
    ring_buffer_count s ≤ s.capacity := by
  rw [count_of_wf h]
  obtain ⟨hc, h16, hh, ht, -, -⟩ := h
  split_ifs <;> omega

theorem count_eq_capacity_iff {s : ring_buffer_t} (h : WellFormed s) :
    ring_buffer_count s = s.capacity ↔ s.is_full = true := by
  rw [count_of_wf h]
  obtain ⟨hc, h16, hh, ht, -, -⟩ := h
  split_ifs with h1 h2 <;> simp [h1] <;> omega

theorem count_eq_zero_iff {s : ring_buffer_t} (h : WellFormed s) :
    ring_buffer_count s = 0 ↔ ring_buffer_is_empty s = true := by
  rw [count_of_wf h]
  obtain ⟨hc, h16, hh, ht, hf, -⟩ := h
  unfold ring_buffer_is_empty
  cases hfull : s.is_full
  · simp only [Bool.false_eq_true, if_false, Bool.not_false, Bool.and_true, beq_iff_eq]
    split_ifs <;> omega
  · simp only [if_true, Bool.not_true, Bool.and_false, Bool.false_eq_true, iff_false]
    omega

theorem head_eq_of_wf {s : ring_buffer_t} (h : WellFormed s) :
    s.head = (s.tail + ring_buffer_count s) % s.capacity := by
  rw [add_mod_wrap h.2.2.2.1 (count_le_of_wf h), count_of_wf h]
  obtain ⟨hc, h16, hh, ht, hf, -⟩ := h
  split_ifs with h1 <;> first | omega | (have heq := hf h1; omega)

theorem wf_init (rb : ring_buffer_t) (storage : List Byte) (N : Nat) (hN : 0 < N)
    (h16 : N ≤ 65535) (hlen : storage.length = N) :
    WellFormed (ring_buffer_init rb storage N) := by
  unfold WellFormed ring_buffer_init
  simp [hN, h16, hlen]

theorem wf_flush (s : ring_buffer_t) (hc : 0 < s.capacity) (h16 : s.capacity ≤ 65535)
    (hlen : s.buffer.length = s.capacity) : WellFormed (ring_buffer_flush s) := by
  unfold WellFormed ring_buffer_flush
  simp [hc, h16, hlen]

theorem wf_write_next {s : ring_buffer_t} (h : WellFormed s) (b : Byte) :
    WellFormed (write_next s b) := by
  obtain ⟨hc, h16, hh, ht, hf, hlen⟩ := h
  unfold WellFormed write_next
  simp only [List.length_set]
  have h1 := Nat.mod_lt (s.head + 1) hc
  have h2 := Nat.mod_lt (s.tail + 1) hc
  refine ⟨hc, h16, h1, ?_, ?_, hlen⟩
  · split_ifs <;> omega
  · cases hfull : s.is_full
    · simp
    · simp [hf hfull]

theorem count_write_next {s : ring_buffer_t} (h : WellFormed s) (b : Byte) :
    ring_buffer_count (write_next s b) =
      if s.is_full = true then s.capacity else ring_buffer_count s + 1 := by
  rw [count_of_wf (wf_write_next h b), count_of_wf h]
  obtain ⟨hc, h16, hh, ht, hf, hlen⟩ := h
  unfold write_next
  simp only
  rw [add_mod_wrap hh (by omega : 1 ≤ s.capacity), add_mod_wrap ht (by omega : 1 ≤ s.capacity)]
  cases hfull : s.is_full
  · simp only [Bool.false_eq_true, if_false]
    split_ifs <;> first | omega | contradiction
  · have := hf hfull
    simp only [if_true]
    split_ifs <;> first | omega | contradiction

theorem wf_read_next {s : ring_buffer_t} (h : WellFormed s) : WellFormed (read_next s) := by
  obtain ⟨hc, h16, hh, ht, hf, hlen⟩ := h
  unfold WellFormed read_next
  simp only
  exact ⟨hc, h16, hh, Nat.mod_lt _ hc, by simp, hlen⟩

theorem count_read_next {s : ring_buffer_t} (h : WellFormed s)
    (hne : ring_buffer_count s ≠ 0) :
    ring_buffer_count (read_next s) = ring_buffer_count s - 1 := by
  rw [count_of_wf (wf_read_next h)]
  rw [count_of_wf h] at hne ⊢
  obtain ⟨hc, h16, hh, ht, hf, hlen⟩ := h
  unfold read_next
  simp only
  rw [add_mod_wrap ht (by omega : 1 ≤ s.capacity)]
  cases hfull : s.is_full
  · simp only [hfull, Bool.false_eq_true, if_false] at hne ⊢
    split_ifs at hne ⊢ <;> omega
  · have := hf hfull
    simp only [Bool.false_eq_true, if_false, if_true]
    split_ifs <;> omega

/-! ## The queue behind a state -/

theorem length_content (s : ring_buffer_t) : (content s).length = ring_buffer_count s := by
  simp [content]

theorem getElem?_content (s : ring_buffer_t) (n : Nat) :
    (content s)[n]? = if n < ring_buffer_count s then some (slot s n) else none := by
  unfold content
  rw [List.getElem?_map]
  split_ifs with h
  · rw [List.getElem?_range h]
    rfl
  · rw [List.getElem?_eq_none (by simpa using h)]
    rfl

theorem getElem?_keepLast (n : Nat) (l : List Byte) (i : Nat) :
    (keepLast n l)[i]? = l[l.length - n + i]? := by
  unfold keepLast
  rw [List.getElem?_drop]

theorem slot_write_next_old {s : ring_buffer_t} (h : WellFormed s) (b : Byte) (i : Nat)
    (hi : (if s.is_full = true then 1 else 0) + i < ring_buffer_count s) :
    slot (write_next s b) i = slot s ((if s.is_full = true then 1 else 0) + i) := by
  have hcnt := count_of_wf h
  obtain ⟨hc, h16, hh, ht, hf, hlen⟩ := h
  unfold slot write_next
  simp only
  have hidx : ((if s.is_full = true then (s.tail + 1) % s.capacity else s.tail) + i) % s.capacity
      = (s.tail + ((if s.is_full = true then 1 else 0) + i)) % s.capacity := by
    split_ifs
    · rw [Nat.mod_add_mod, Nat.add_assoc]
    · rw [Nat.zero_add]
  rw [hidx, List.getElem?_set_ne]
  rw [add_mod_wrap ht (by split_ifs at hi hcnt ⊢ <;> omega)]
  cases hfull : s.is_full
  · simp only [hfull, Bool.false_eq_true, if_false] at hi hcnt ⊢
    split_ifs at hcnt ⊢ <;> omega
  · have := hf hfull
    simp only [hfull, if_true] at hi hcnt ⊢
    split_ifs <;> omega

theorem slot_write_next_new {s : ring_buffer_t} (h : WellFormed s) (b : Byte) (i : Nat)
    (hi : (if s.is_full = true then 1 else 0) + i = ring_buffer_count s) :
    slot (write_next s b) i = b := by
  have hcnt := count_of_wf h
  obtain ⟨hc, h16, hh, ht, hf, hlen⟩ := h
  unfold slot write_next
  simp only
  have hidx : ((if s.is_full = true then (s.tail + 1) % s.capacity else s.tail) + i) % s.capacity
      = s.head := by
    cases hfull : s.is_full
    · simp only [hfull, Bool.false_eq_true, if_false] at hi hcnt ⊢
      rw [add_mod_wrap ht (by split_ifs at hcnt <;> omega)]
      split_ifs at hcnt ⊢ <;> omega
    · have := hf hfull
      simp only [hfull, if_true] at hi hcnt ⊢
      rw [Nat.mod_add_mod, Nat.add_assoc, add_mod_wrap ht (show 1 + i ≤ s.capacity by omega)]
      split_ifs <;> omega
  rw [hidx, List.getElem?_set_self (by omega)]
  rfl

theorem content_write_next {s : ring_buffer_t} (h : WellFormed s) (b : Byte) :
    content (write_next s b) = keepLast s.capacity (content s ++ [b]) := by
  have hle := count_le_of_wf h
  have hfull := count_eq_capacity_iff h
  apply List.ext_getElem?
  intro n
  rw [getElem?_content, getElem?_keepLast, count_write_next h b, List.length_append,
    length_content, List.length_singleton]
  have hk : ring_buffer_count s + 1 - s.capacity = if s.is_full = true then 1 else 0 := by
    split_ifs with hf
    · have := hfull.2 hf
      omega
    · have : ring_buffer_count s ≠ s.capacity := fun e => hf (hfull.1 e)
      omega
  rw [hk]
  rcases Nat.lt_trichotomy ((if s.is_full = true then 1 else 0) + n) (ring_buffer_count s)
    with hlt | heq | hgt
  · rw [List.getElem?_append_left (by rw [length_content]; exact hlt), getElem?_content,
      if_pos hlt, slot_write_next_old h b n hlt, if_pos (by split_ifs at hlt ⊢ <;> omega)]
  · rw [List.getElem?_append_right (by rw [length_content]; omega), length_content, heq,
      Nat.sub_self, slot_write_next_new h b n heq, if_pos (by split_ifs at heq ⊢ <;> omega)]
    rfl
  · have hnone : (content s ++ [b])[(if s.is_full = true then 1 else 0) + n]? = none := by
      apply List.getElem?_eq_none
      rw [List.length_append, length_content, List.length_singleton]
      omega
    have hge : ¬ n < if s.is_full = true then s.capacity else ring_buffer_count s + 1 := by
      split_ifs at hgt ⊢ with hf
      · have := hfull.2 hf
        omega
      · omega
    rw [hnone, if_neg hge]

theorem slot_zero {s : ring_buffer_t} (h : WellFormed s) (ht : s.tail < s.buffer.length) :
    slot s 0 = s.buffer[s.tail] := by
  unfold slot
  rw [Nat.add_zero, Nat.mod_eq_of_lt h.2.2.2.1, List.getElem?_eq_getElem ht]
  rfl

theorem slot_read_next (s : ring_buffer_t) (n : Nat) :
    slot (read_next s) n = slot s (n + 1) := by
  unfold slot read_next
  simp only
  rw [Nat.mod_add_mod, Nat.add_assoc, Nat.add_comm 1 n]

theorem content_read_next {s : ring_buffer_t} (h : WellFormed s)
    (hne : ring_buffer_count s ≠ 0) :
    content s = slot s 0 :: content (read_next s) := by
  apply List.ext_getElem?
  intro n
  cases n with
  | zero =>
    rw [getElem?_content, if_pos (by omega), List.getElem?_cons_zero]
  | succ n =>
    rw [List.getElem?_cons_succ, getElem?_content, getElem?_content, count_read_next h hne,
      slot_read_next]
    by_cases hn : n + 1 < ring_buffer_count s
    · rw [if_pos hn, if_pos (by omega)]
    · rw [if_neg hn, if_neg (by omega)]

theorem keepLast_of_length_le {n : Nat} {l : List Byte} (h : l.length ≤ n) :
    keepLast n l = l := by
  unfold keepLast
  rw [Nat.sub_eq_zero_of_le h, List.drop_zero]

theorem length_keepLast (n : Nat) (l : List Byte) :
    (keepLast n l).length = min l.length n := by
  unfold keepLast
  rw [List.length_drop]
  omega

theorem keepLast_append (n : Nat) (l m : List Byte) :
    keepLast n (keepLast n l ++ m) = keepLast n (l ++ m) := by
  unfold keepLast
  rw [← List.drop_append_of_le_length (Nat.sub_le _ _), List.drop_drop]
  congr 1
  rw [List.length_drop, List.length_append]
  omega

/-! ## Runs of calls -/

theorem write_all_spec (bs : List Byte) :
    ∀ s : ring_buffer_t, WellFormed s →
      ∃ s1, write_all s bs = some (s1, List.replicate bs.length true) ∧ WellFormed s1 ∧
        s1.capacity = s.capacity ∧ content s1 = keepLast s.capacity (content s ++ bs) := by
  induction bs with
  | nil =>
    intro s h
    refine ⟨s, rfl, h, rfl, ?_⟩
    rw [List.append_nil, keepLast_of_length_le]
    rw [length_content]
    exact count_le_of_wf h
  | cons b bs ih =>
    intro s h
    have hw := write_defined s b h.1 h.2.1 (by rw [h.2.2.2.2.2]; exact h.2.2.1)
    obtain ⟨s1, hrun, hwf, hcap, hcont⟩ := ih (write_next s b) (wf_write_next h b)
    refine ⟨s1, ?_, hwf, hcap, ?_⟩
    · simp [write_all, hw, hrun, List.replicate_succ]
    · rw [hcont, content_write_next h b]
      change keepLast s.capacity (keepLast s.capacity (content s ++ [b]) ++ bs) = _
      rw [keepLast_append, List.append_assoc]
      rfl

theorem read_n_spec (n : Nat) :
    ∀ (s : ring_buffer_t) (d : Byte), WellFormed s → n ≤ ring_buffer_count s →
      ∃ s1, read_n s d n = some (s1, ((content s).take n).map fun b => (true, b)) ∧
        WellFormed s1 ∧ s1.capacity = s.capacity ∧ content s1 = (content s).drop n := by
  induction n with
  | zero =>
    intro s d h _
    exact ⟨s, rfl, h, rfl, rfl⟩
  | succ n ih =>
    intro s d h hn
    have hne : ring_buffer_count s ≠ 0 := by omega
    have hnonempty : ¬ (s.head = s.tail ∧ s.is_full = false) := by
      intro hem
      apply hne
      rw [count_eq_zero_iff h]
      unfold ring_buffer_is_empty
      simp [hem.1, hem.2]
    have ht : s.tail < s.buffer.length := by rw [h.2.2.2.2.2]; exact h.2.2.2.1
    have hr := read_defined s d h.1 h.2.1 ht hnonempty
    have hcont := content_read_next h hne
    obtain ⟨s1, hrun, hwf, hcap, hrest⟩ :=
      ih (read_next s) s.buffer[s.tail] (wf_read_next h) (by rw [count_read_next h hne]; omega)
    refine ⟨s1, ?_, hwf, hcap, ?_⟩
    · rw [hcont, slot_zero h ht]
      simp [read_n, hr, hrun]
    · rw [hrest, hcont, List.drop_succ_cons]

theorem keepLast_append_of_le {n : Nat} (l m : List Byte) (h : n ≤ m.length) :
    keepLast n (l ++ m) = keepLast n m := by
  unfold keepLast
  rw [List.drop_append_eq_append_drop, List.length_append,
    List.drop_eq_nil_of_le (by omega), List.nil_append]
  congr 1
  omega

theorem content_eq_nil_of_empty {s : ring_buffer_t} (h : WellFormed s)
    (he : ring_buffer_is_empty s = true) : content s = [] := by
  apply List.eq_nil_of_length_eq_zero
  rw [length_content]
  exact (count_eq_zero_iff h).2 he

theorem empty_of_content_eq_nil {s : ring_buffer_t} (h : WellFormed s)
    (hc : content s = []) : ring_buffer_is_empty s = true := by
  apply (count_eq_zero_iff h).1
  rw [← length_content, hc]
  rfl

theorem read_all_spec (s : ring_buffer_t) (d : Byte) (h : WellFormed s) :
    ∃ s1, read_n s d (ring_buffer_count s) = some (s1, (content s).map fun b => (true, b)) ∧
      WellFormed s1 ∧ s1.capacity = s.capacity ∧ ring_buffer_is_empty s1 = true := by
  obtain ⟨s1, hrun, hwf, hcap, hcont⟩ := read_n_spec (ring_buffer_count s) s d h (Nat.le_refl _)
  rw [List.take_of_length_le (by rw [length_content])] at hrun
  rw [List.drop_eq_nil_of_le (by rw [length_content])] at hcont
  exact ⟨s1, hrun, hwf, hcap, empty_of_content_eq_nil hwf hcont⟩

/-! ## The claims -/

/-- C1: FIFO order and round trip.  For every capacity `N` with
`0 < N ≤ 65535`, every storage of length `N` and every list `bs` of at most
`N` bytes, on the struct that `ring_buffer_init` sets up (whatever it held
before) the writes of `bs` are all defined and return `true`, the same number
of reads are then all defined, return `true` and yield the bytes of `bs` in
the order written, and `ring_buffer_is_empty` holds afterwards.  The bytes
`0, 1, ..., N - 1` are the case `bs = [0, ..., N - 1]`. -/
theorem C1_fifo_round_trip (N : Nat) (hN : 0 < N) (h16 : N ≤ 65535) (rb : ring_buffer_t)
    (storage : List Byte) (hlen : storage.length = N) (bs : List Byte)
    (hk : bs.length ≤ N) (d : Byte) :
    ∃ s1 s2,
      write_all (ring_buffer_init rb storage N) bs = some (s1, List.replicate bs.length true) ∧
      read_n s1 d bs.length = some (s2, bs.map fun b => (true, b)) ∧
      ring_buffer_is_empty s2 = true := by
  have hwf := wf_init rb storage N hN h16 hlen
  obtain ⟨s1, hrun, hwf1, -, hcont⟩ := write_all_spec bs _ hwf
  rw [content_eq_nil_of_empty hwf rfl, List.nil_append] at hcont
  change content s1 = keepLast N bs at hcont
  rw [keepLast_of_length_le hk] at hcont
  obtain ⟨s2, hread, -, -, hempty⟩ := read_all_spec s1 d hwf1
  rw [← length_content, hcont] at hread
  exact ⟨s1, s2, hrun, hread, hempty⟩

theorem C1_fifo_round_trip_witness :
    0 < 4 ∧ 4 ≤ 65535 ∧ ([9, 9, 9, 9] : List Byte).length = 4 ∧
      ([0, 1, 2, 3] : List Byte).length ≤ 4 ∧
      ∃ s1 s2,
        write_all (ring_buffer_init ⟨[], 7, 5, 0, true⟩ [9, 9, 9, 9] 4) [0, 1, 2, 3]
          = some (s1, [true, true, true, true]) ∧
        read_n s1 200 4 = some (s2, [(true, 0), (true, 1), (true, 2), (true, 3)]) ∧
        ring_buffer_is_empty s2 = true :=
  ⟨by decide, by decide, rfl, by decide,
    C1_fifo_round_trip 4 (by decide) (by decide) ⟨[], 7, 5, 0, true⟩ [9, 9, 9, 9] rfl
      [0, 1, 2, 3] (by decide) 200⟩

/-- C2: overwrite-on-full keeps the newest bytes.  For every capacity `N`
with `0 < N ≤ 65535` and every list `bs` of more than `N` bytes, the writes of
`bs` with no read in between, started on a freshly initialised buffer with a
storage of length `N` or on any well-formed state of capacity `N`, are all
defined and return `true` and leave `ring_buffer_is_full` true and
`ring_buffer_count` equal to `N`; the next `N` reads are all defined, return
`true` and yield the last `N` bytes of `bs` in order, and the buffer is empty
afterwards. -/
theorem C2_overwrite_keeps_newest (N : Nat) (hN : 0 < N) (h16 : N ≤ 65535) (bs : List Byte)
    (hn : N < bs.length) (d : Byte) :
    (∀ (rb : ring_buffer_t) (storage : List Byte), storage.length = N →
      ∃ s1 s2,
        write_all (ring_buffer_init rb storage N) bs
          = some (s1, List.replicate bs.length true) ∧
        ring_buffer_is_full s1 = true ∧ ring_buffer_count s1 = N ∧
        read_n s1 d N = some (s2, (bs.drop (bs.length - N)).map fun b => (true, b)) ∧
        ring_buffer_is_empty s2 = true) ∧
    (∀ s : ring_buffer_t, WellFormed s → s.capacity = N →
      ∃ s1 s2,
        write_all s bs = some (s1, List.replicate bs.length true) ∧
        ring_buffer_is_full s1 = true ∧ ring_buffer_count s1 = N ∧
        read_n s1 d N = some (s2, (bs.drop (bs.length - N)).map fun b => (true, b)) ∧
        ring_buffer_is_empty s2 = true) := by
  have general : ∀ s : ring_buffer_t, WellFormed s → s.capacity = N →
      ∃ s1 s2,
        write_all s bs = some (s1, List.replicate bs.length true) ∧
        ring_buffer_is_full s1 = true ∧ ring_buffer_count s1 = N ∧
        read_n s1 d N = some (s2, (bs.drop (bs.length - N)).map fun b => (true, b)) ∧
        ring_buffer_is_empty s2 = true := by
    intro s hwf hcap
    obtain ⟨s1, hrun, hwf1, hcap1, hcont⟩ := write_all_spec bs s hwf
    rw [hcap, keepLast_append_of_le _ _ (Nat.le_of_lt hn)] at hcont
    have hcount : ring_buffer_count s1 = N := by
      rw [← length_content, hcont, length_keepLast]
      omega
    have hfull : s1.is_full = true := by
      apply (count_eq_capacity_iff hwf1).1
      rw [hcount, hcap1, hcap]
    obtain ⟨s2, hread, -, -, hempty⟩ := read_all_spec s1 d hwf1
    rw [hcount, hcont] at hread
    exact ⟨s1, s2, hrun, hfull, hcount, hread, hempty⟩
  refine ⟨?_, general⟩
  intro rb storage hlen
  exact general _ (wf_init rb storage N hN h16 hlen) rfl

theorem C2_overwrite_keeps_newest_witness :
    0 < 4 ∧ 4 ≤ 65535 ∧ 4 < ([1, 2, 3, 4, 5] : List Byte).length ∧
      (∃ s, write_all (ring_buffer_init ⟨[], 0, 0, 0, false⟩ [0, 0, 0, 0] 4) [1, 2, 3, 4]
          = some (s, [true, true, true, true]) ∧
        ring_buffer_is_full s = true ∧ ring_buffer_count s = 4) ∧
      (∃ s1 s2,
        write_all (ring_buffer_init ⟨[], 0, 0, 0, false⟩ [0, 0, 0, 0] 4) [1, 2, 3, 4, 5]
          = some (s1, [true, true, true, true, true]) ∧
        ring_buffer_is_full s1 = true ∧ ring_buffer_count s1 = 4 ∧
        read_n s1 0 4 = some (s2, [(true, 2), (true, 3), (true, 4), (true, 5)]) ∧
        ring_buffer_is_empty s2 = true) :=
  ⟨by decide, by decide, by decide,
    ⟨⟨[1, 2, 3, 4], 0, 0, 4, true⟩, by decide, rfl, rfl⟩,
    (C2_overwrite_keeps_newest 4 (by decide) (by decide) [1, 2, 3, 4, 5] (by decide) 0).1
      ⟨[], 0, 0, 0, false⟩ [0, 0, 0, 0] rfl⟩

/-- C3: a read on an empty buffer fails and changes nothing.  In every state
with `head = tail` and the full flag clear, `ring_buffer_read` is defined,
returns `false`, returns the struct as it was (so `head`, `tail`, `capacity`,
the flag and the storage are unchanged, and with them `ring_buffer_count`)
and leaves the output byte as it was.  On a freshly initialised buffer of
capacity 4 the count is 0 before and after and `ring_buffer_is_empty` stays
true. -/
theorem C3_read_empty_fails (s : ring_buffer_t) (d : Byte) (hht : s.head = s.tail)
    (hf : s.is_full = false) :
    ring_buffer_read s d = some (s, d, false) ∧
    (∀ s1 d1 r, ring_buffer_read s d = some (s1, d1, r) →
      r = false ∧ d1 = d ∧ s1.head = s.head ∧ s1.tail = s.tail ∧ s1.capacity = s.capacity ∧
        s1.is_full = s.is_full ∧ s1.buffer = s.buffer ∧
        ring_buffer_count s1 = ring_buffer_count s) ∧
    (∀ (rb : ring_buffer_t) (storage : List Byte),
      ring_buffer_read (ring_buffer_init rb storage 4) d
          = some (ring_buffer_init rb storage 4, d, false) ∧
        ring_buffer_count (ring_buffer_init rb storage 4) = 0 ∧
        ring_buffer_is_empty (ring_buffer_init rb storage 4) = true) := by
  have hread : ring_buffer_read s d = some (s, d, false) := by
    unfold ring_buffer_read
    simp [hht, hf]
  refine ⟨hread, ?_, ?_⟩
  · intro s1 d1 r h
    rw [hread] at h
    simp only [Option.some.injEq, Prod.mk.injEq] at h
    obtain ⟨rfl, rfl, rfl⟩ := h
    exact ⟨rfl, rfl, rfl, rfl, rfl, rfl, rfl, rfl⟩
  · intro rb storage
    exact ⟨rfl, rfl, rfl⟩

theorem C3_read_empty_fails_witness :
    (⟨[5, 6, 7], 2, 2, 3, false⟩ : ring_buffer_t).head = 2 ∧
      (⟨[5, 6, 7], 2, 2, 3, false⟩ : ring_buffer_t).is_full = false ∧
      ring_buffer_read ⟨[5, 6, 7], 2, 2, 3, false⟩ 42 = some (⟨[5, 6, 7], 2, 2, 3, false⟩, 42, false) :=
  ⟨rfl, rfl, (C3_read_empty_fails ⟨[5, 6, 7], 2, 2, 3, false⟩ 42 rfl rfl).1⟩

/-- C4: `ring_buffer_write` always reports success.  In no state and for no
byte does `ring_buffer_write` return `false`; and in every state with
`capacity > 0` whose write slot `head` lies inside the storage (empty, partly
filled or full) the call is defined and returns `true`. -/
theorem C4_write_reports_success (s : ring_buffer_t) (b : Byte) :
    (∀ s1, ring_buffer_write s b ≠ some (s1, false)) ∧
    (0 < s.capacity → s.head < s.buffer.length →
      ∃ s1, ring_buffer_write s b = some (s1, true)) := by
  constructor
  · intro s1 h
    unfold ring_buffer_write at h
    cases hf : s.is_full <;>
      simp [hf, Option.bind_eq_some] at h
  · intro hc hh
    unfold ring_buffer_write advance store
    cases hf : s.is_full <;> simp [Nat.pos_iff_ne_zero.1 hc, hh]

theorem C4_write_reports_success_witness :
    0 < (⟨[1, 2], 0, 0, 2, true⟩ : ring_buffer_t).capacity ∧
      (⟨[1, 2], 0, 0, 2, true⟩ : ring_buffer_t).head
        < (⟨[1, 2], 0, 0, 2, true⟩ : ring_buffer_t).buffer.length ∧
      ∃ s1, ring_buffer_write ⟨[1, 2], 0, 0, 2, true⟩ 9 = some (s1, true) :=
  ⟨by decide, by decide,
    (C4_write_reports_success ⟨[1, 2], 0, 0, 2, true⟩ 9).2 (by decide) (by decide)⟩

/-- C5, refuted as stated: on the full one-byte buffer that
`ring_buffer_init` and one write of 7 lead to, `ring_buffer_write` returns
`true` and replaces the 7, so it is not the case that the call returns
`false` in every state whose full flag is set. -/
theorem C5_write_on_full_counterexample :
    write_all (ring_buffer_init ⟨[], 0, 0, 0, false⟩ [0] 1) [7]
        = some (⟨[7], 0, 0, 1, true⟩, [true]) ∧
      ring_buffer_is_full ⟨[7], 0, 0, 1, true⟩ = true ∧
      ring_buffer_write ⟨[7], 0, 0, 1, true⟩ 9 = some (⟨[9], 0, 0, 1, true⟩, true) ∧
      ¬ (∀ (s : ring_buffer_t) (b : Byte), s.is_full = true →
          ∃ s1, ring_buffer_write s b = some (s1, false)) := by
  refine ⟨by decide, by decide, by decide, ?_⟩
  intro hall
  obtain ⟨s1, hs1⟩ := hall ⟨[7], 0, 0, 1, true⟩ 9 rfl
  have hrun : ring_buffer_write ⟨[7], 0, 0, 1, true⟩ 9
      = some (⟨[9], 0, 0, 1, true⟩, true) := by decide
  rw [hrun] at hs1
  simp only [Option.some.injEq, Prod.mk.injEq] at hs1
  exact Bool.noConfusion hs1.2

/-- C5, amended: return value of `ring_buffer_write` on a full buffer.  In
every state whose full flag is set the call never returns `false`; and when
the capacity is not zero and fits a `uint16_t` and `head` lies inside the
storage, the call is defined and returns `true`, the data having been
written: `tail` is advanced by one modulo the capacity, which discards the
oldest byte, and the byte is stored at the old `head`. -/
theorem C5_write_on_full_returns_true (s : ring_buffer_t) (b : Byte)
    (hfull : s.is_full = true) :
    (∀ s1, ring_buffer_write s b ≠ some (s1, false)) ∧
    (0 < s.capacity → s.capacity ≤ 65535 → s.head < s.buffer.length →
      ∃ s1, ring_buffer_write s b = some (s1, true) ∧
        s1.tail = (s.tail + 1) % s.capacity ∧ s1.buffer = s.buffer.set s.head b) := by
  constructor
  · intro s1 h
    unfold ring_buffer_write at h
    simp [hfull, Option.bind_eq_some] at h
  · intro hc h16 hh
    refine ⟨write_next s b, write_defined s b hc h16 hh, ?_, rfl⟩
    simp only [write_next, hfull, if_true]

theorem C5_write_on_full_returns_true_witness :
    (⟨[7], 0, 0, 1, true⟩ : ring_buffer_t).is_full = true ∧
      (∀ s1, ring_buffer_write ⟨[7], 0, 0, 1, true⟩ 9 ≠ some (s1, false)) ∧
      ∃ s1, ring_buffer_write ⟨[7], 0, 0, 1, true⟩ 9 = some (s1, true) ∧
        s1.tail = (0 + 1) % 1 ∧ s1.buffer = ([7] : List Byte).set 0 9 :=
  ⟨rfl, (C5_write_on_full_returns_true ⟨[7], 0, 0, 1, true⟩ 9 rfl).1,
    (C5_write_on_full_returns_true ⟨[7], 0, 0, 1, true⟩ 9 rfl).2 (by decide) (by decide)
      (by decide)⟩

/-- C6: count after `k` writes.  For every capacity `N` with
`0 < N ≤ 65535` and every list `bs` of `k ≤ N` bytes, the writes of `bs` on a
buffer just initialised by `ring_buffer_init` with a storage of length `N`,
or on any struct of capacity `N` with a storage of length `N` that
`ring_buffer_flush` has just reset, are all defined, and afterwards
`ring_buffer_count` returns exactly `k`. -/
theorem C6_count_after_writes (N : Nat) (hN : 0 < N) (h16 : N ≤ 65535) (bs : List Byte)
    (hk : bs.length ≤ N) :
    (∀ (rb : ring_buffer_t) (storage : List Byte), storage.length = N →
      ∃ s1 rs, write_all (ring_buffer_init rb storage N) bs = some (s1, rs) ∧
        ring_buffer_count s1 = bs.length) ∧
    (∀ s : ring_buffer_t, s.capacity = N → s.buffer.length = N →
      ∃ s1 rs, write_all (ring_buffer_flush s) bs = some (s1, rs) ∧
        ring_buffer_count s1 = bs.length) := by
  have general : ∀ s : ring_buffer_t, WellFormed s → s.capacity = N →
      ring_buffer_is_empty s = true →
      ∃ s1 rs, write_all s bs = some (s1, rs) ∧ ring_buffer_count s1 = bs.length := by
    intro s hwf hcap hempty
    obtain ⟨s1, hrun, -, -, hcont⟩ := write_all_spec bs s hwf
    rw [content_eq_nil_of_empty hwf hempty, List.nil_append, hcap,
      keepLast_of_length_le hk] at hcont
    exact ⟨s1, _, hrun, by rw [← length_content, hcont]⟩
  constructor
  · intro rb storage hlen
    exact general _ (wf_init rb storage N hN h16 hlen) rfl rfl
  · intro s hcap hlen
    have hwf : WellFormed (ring_buffer_flush s) :=
      wf_flush s (by rw [hcap]; exact hN) (by rw [hcap]; exact h16) (by rw [hlen, hcap])
    exact general _ hwf hcap rfl

theorem C6_count_after_writes_witness :
    0 < 3 ∧ 3 ≤ 65535 ∧ ([10, 20] : List Byte).length ≤ 3 ∧
      (∃ s1 rs, write_all (ring_buffer_init ⟨[], 1, 1, 9, true⟩ [0, 0, 0] 3) [10, 20]
          = some (s1, rs) ∧ ring_buffer_count s1 = 2) ∧
      (∃ s1 rs, write_all (ring_buffer_flush ⟨[4, 5, 6], 2, 2, 3, true⟩) [10, 20]
          = some (s1, rs) ∧ ring_buffer_count s1 = 2) :=
  ⟨by decide, by decide, by decide,
    (C6_count_after_writes 3 (by decide) (by decide) [10, 20] (by decide)).1
      ⟨[], 1, 1, 9, true⟩ [0, 0, 0] rfl,
    (C6_count_after_writes 3 (by decide) (by decide) [10, 20] (by decide)).2
      ⟨[4, 5, 6], 2, 2, 3, true⟩ rfl rfl⟩

/-- C7: full after exactly `capacity` writes.  For every capacity `N` with
`0 < N ≤ 65535` (`N = 1` included), every storage of length `N` and every
list `bs` of `k ≤ N` bytes, the writes of `bs` on a freshly initialised
buffer, with no read in between, are all defined, and afterwards
`ring_buffer_is_full` returns `true` if and only if `k = N`. -/
theorem C7_full_iff_capacity_writes (N : Nat) (hN : 0 < N) (h16 : N ≤ 65535)
    (rb : ring_buffer_t) (storage : List Byte) (hlen : storage.length = N) (bs : List Byte)
    (hk : bs.length ≤ N) :
    ∃ s1 rs, write_all (ring_buffer_init rb storage N) bs = some (s1, rs) ∧
      (ring_buffer_is_full s1 = true ↔ bs.length = N) := by
  have hwf := wf_init rb storage N hN h16 hlen
  obtain ⟨s1, hrun, hwf1, hcap1, hcont⟩ := write_all_spec bs _ hwf
  rw [content_eq_nil_of_empty hwf rfl, List.nil_append] at hcont
  change content s1 = keepLast N bs at hcont
  rw [keepLast_of_length_le hk] at hcont
  have hcount : ring_buffer_count s1 = bs.length := by rw [← length_content, hcont]
  refine ⟨s1, _, hrun, ?_⟩
  unfold ring_buffer_is_full
  rw [← count_eq_capacity_iff hwf1, hcount, hcap1]
  rfl

theorem C7_full_iff_capacity_writes_witness :
    0 < 1 ∧ 1 ≤ 65535 ∧ ([0] : List Byte).length = 1 ∧ ([8] : List Byte).length ≤ 1 ∧
      ∃ s1 rs, write_all (ring_buffer_init ⟨[], 0, 0, 0, false⟩ [0] 1) [8] = some (s1, rs) ∧
        (ring_buffer_is_full s1 = true ↔ ([8] : List Byte).length = 1) :=
  ⟨by decide, by decide, rfl, by decide,
    C7_full_iff_capacity_writes 1 (by decide) (by decide) ⟨[], 0, 0, 0, false⟩ [0] rfl [8]
      (by decide)⟩

/-- C8: successful read.  In every well-formed non-empty state (a
`capacity > 0` that a `uint16_t` holds, `head < capacity`, `tail < capacity`,
full implies `head = tail`, not (`head = tail` and not full), storage as long
as the capacity) `ring_buffer_read` is defined and returns `true`, puts
`storage[tail]` of the old `tail` into the output byte, sets `tail` to
`(tail + 1) % capacity`, clears the full flag and leaves `head`, `capacity`
and the storage unchanged. -/
theorem C8_successful_read (s : ring_buffer_t) (d : Byte) (hc : 0 < s.capacity)
    (h16 : s.capacity ≤ 65535) (_hh : s.head < s.capacity) (ht : s.tail < s.capacity)
    (_hf : s.is_full = true → s.head = s.tail)
    (hne : ¬ (s.head = s.tail ∧ s.is_full = false))
    (hlen : s.buffer.length = s.capacity) :
    ∃ s1 d1, ring_buffer_read s d = some (s1, d1, true) ∧
      some d1 = s.buffer[s.tail]? ∧ s1.tail = (s.tail + 1) % s.capacity ∧
      s1.is_full = false ∧ s1.head = s.head ∧ s1.capacity = s.capacity ∧
      s1.buffer = s.buffer := by
  have ht1 : s.tail < s.buffer.length := by rw [hlen]; exact ht
  refine ⟨read_next s, s.buffer[s.tail], read_defined s d hc h16 ht1 hne, ?_, rfl, rfl, rfl,
    rfl, rfl⟩
  rw [List.getElem?_eq_getElem ht1]

theorem C8_successful_read_witness :
    ∃ s1 d1, ring_buffer_read ⟨[5, 6, 7], 1, 2, 3, false⟩ 0 = some (s1, d1, true) ∧
      some d1 = ([5, 6, 7] : List Byte)[2]? ∧ s1.tail = (2 + 1) % 3 ∧
      s1.is_full = false ∧ s1.head = 1 ∧ s1.capacity = 3 ∧ s1.buffer = [5, 6, 7] :=
  C8_successful_read ⟨[5, 6, 7], 1, 2, 3, false⟩ 0 (by decide) (by decide) (by decide)
    (by decide) (by decide) (by decide) rfl

/-- C9: empty after the last byte is read.  In every well-formed state (a
`capacity > 0` that a `uint16_t` holds, `head < capacity`, `tail < capacity`,
full implies `head = tail`, storage as long as the capacity) in which
`ring_buffer_count` returns 1, `ring_buffer_read` is defined and returns
`true`, and in the state it leaves `ring_buffer_is_empty` returns `true` and
`ring_buffer_count` returns 0.  For capacity 1 the state read from is
full. -/
theorem C9_empty_after_last_read (s : ring_buffer_t) (d : Byte) (hc : 0 < s.capacity)
    (h16 : s.capacity ≤ 65535) (hh : s.head < s.capacity) (ht : s.tail < s.capacity)
    (hf : s.is_full = true → s.head = s.tail) (hlen : s.buffer.length = s.capacity)
    (h1 : ring_buffer_count s = 1) :
    (∃ s1 d1, ring_buffer_read s d = some (s1, d1, true) ∧
      ring_buffer_is_empty s1 = true ∧ ring_buffer_count s1 = 0) ∧
    (s.capacity = 1 → ring_buffer_is_full s = true) := by
  have hwf : WellFormed s := ⟨hc, h16, hh, ht, hf, hlen⟩
  have hne : ring_buffer_count s ≠ 0 := by omega
  have hnonempty : ¬ (s.head = s.tail ∧ s.is_full = false) := by
    intro hem
    apply hne
    rw [count_eq_zero_iff hwf]
    unfold ring_buffer_is_empty
    simp [hem.1, hem.2]
  have hcount : ring_buffer_count (read_next s) = 0 := by
    rw [count_read_next hwf hne, h1]
  constructor
  · exact ⟨read_next s, s.buffer[s.tail],
      read_defined s d hc h16 (by rw [hlen]; exact ht) hnonempty,
      (count_eq_zero_iff (wf_read_next hwf)).1 hcount, hcount⟩
  · intro hcap
    unfold ring_buffer_is_full
    rw [← count_eq_capacity_iff hwf, h1, hcap]

theorem C9_empty_after_last_read_witness :
    ring_buffer_count ⟨[7], 0, 0, 1, true⟩ = 1 ∧
      (∃ s1 d1, ring_buffer_read ⟨[7], 0, 0, 1, true⟩ 0 = some (s1, d1, true) ∧
        ring_buffer_is_empty s1 = true ∧ ring_buffer_count s1 = 0) ∧
      ring_buffer_is_full ⟨[7], 0, 0, 1, true⟩ = true :=
  ⟨rfl,
    (C9_empty_after_last_read ⟨[7], 0, 0, 1, true⟩ 0 (by decide) (by decide) (by decide)
      (by decide) (by decide) rfl rfl).1,
    (C9_empty_after_last_read ⟨[7], 0, 0, 1, true⟩ 0 (by decide) (by decide) (by decide)
      (by decide) (by decide) rfl rfl).2 rfl⟩

/-- C10: flush is a logical clear from any state.  For every struct
whatsoever, after `ring_buffer_flush` the fields `head` and `tail` are 0 and
the full flag is false, `ring_buffer_count` returns 0 and
`ring_buffer_is_empty` returns `true`, and `capacity` and the storage are
what they were (the storage is not zeroed). -/
theorem C10_flush_clears (s : ring_buffer_t) :
    (ring_buffer_flush s).head = 0 ∧ (ring_buffer_flush s).tail = 0 ∧
      (ring_buffer_flush s).is_full = false ∧
      ring_buffer_count (ring_buffer_flush s) = 0 ∧
      ring_buffer_is_empty (ring_buffer_flush s) = true ∧
      (ring_buffer_flush s).capacity = s.capacity ∧
      (ring_buffer_flush s).buffer = s.buffer :=
  ⟨rfl, rfl, rfl, rfl, rfl, rfl, rfl⟩

/-! ## What a defined call returns -/

theorem write_eq_some {s s1 : ring_buffer_t} {b : Byte} {r : Bool} (hc : 0 < s.capacity)
    (h16 : s.capacity ≤ 65535) (h : ring_buffer_write s b = some (s1, r)) :
    s.head < s.buffer.length ∧ s1 = write_next s b ∧ r = true := by
  by_cases hh : s.head < s.buffer.length
  · rw [write_defined s b hc h16 hh] at h
    simp only [Option.some.injEq, Prod.mk.injEq] at h
    exact ⟨hh, h.1.symm, h.2.symm⟩
  · exfalso
    unfold ring_buffer_write at h
    cases hf : s.is_full <;> simp [hf, store, hh, advance_eq hc h16] at h

theorem read_eq_some {s s1 : ring_buffer_t} {d d1 : Byte} {r : Bool} (hc : 0 < s.capacity)
    (h16 : s.capacity ≤ 65535) (h : ring_buffer_read s d = some (s1, d1, r)) :
    (s.head = s.tail ∧ s.is_full = false ∧ s1 = s ∧ d1 = d ∧ r = false) ∨
    (¬ (s.head = s.tail ∧ s.is_full = false) ∧ s.tail < s.buffer.length ∧
      s1 = read_next s ∧ some d1 = s.buffer[s.tail]? ∧ r = true) := by
  by_cases he : s.head = s.tail ∧ s.is_full = false
  · left
    have hread : ring_buffer_read s d = some (s, d, false) := by
      unfold ring_buffer_read
      simp [he.1, he.2]
    rw [hread] at h
    simp only [Option.some.injEq, Prod.mk.injEq] at h
    exact ⟨he.1, he.2, h.1.symm, h.2.1.symm, h.2.2.symm⟩
  · right
    by_cases ht : s.tail < s.buffer.length
    · rw [read_defined s d hc h16 ht he] at h
      simp only [Option.some.injEq, Prod.mk.injEq] at h
      refine ⟨he, ht, h.1.symm, ?_, h.2.2.symm⟩
      rw [List.getElem?_eq_getElem ht, h.2.1]
    · exfalso
      have hcond : (s.head == s.tail && !s.is_full) = false := by
        cases hf : s.is_full <;> simp_all
      unfold ring_buffer_read at h
      rw [hcond] at h
      simp [load, List.getElem?_eq_none (Nat.le_of_not_lt ht)] at h

/-! ## The bookkeeping fields alone -/

theorem indexOk_of_wf {s : ring_buffer_t} (h : WellFormed s) : IndexOk s :=
  ⟨h.1, h.2.1, h.2.2.1, h.2.2.2.1, h.2.2.2.2.1⟩

theorem wf_of_indexOk {s : ring_buffer_t} (h : IndexOk s)
    (hlen : s.buffer.length = s.capacity) : WellFormed s :=
  ⟨h.1, h.2.1, h.2.2.1, h.2.2.2.1, h.2.2.2.2, hlen⟩

theorem count_of_indexOk {s : ring_buffer_t} (h : IndexOk s) :
    ring_buffer_count s =
      if s.is_full = true then s.capacity
      else if s.tail ≤ s.head then s.head - s.tail
      else s.capacity - s.tail + s.head := by
  obtain ⟨hc, h16, hh, ht, -⟩ := h
  unfold ring_buffer_count
  split_ifs <;> omega

theorem count_eq_capacity_iff_of_indexOk {s : ring_buffer_t} (h : IndexOk s) :
    ring_buffer_count s = s.capacity ↔ s.is_full = true := by
  rw [count_of_indexOk h]
  obtain ⟨hc, h16, hh, ht, -⟩ := h
  split_ifs with h1 h2 <;> simp [h1] <;> omega

theorem count_eq_zero_iff_of_indexOk {s : ring_buffer_t} (h : IndexOk s) :
    ring_buffer_count s = 0 ↔ ring_buffer_is_empty s = true := by
  rw [count_of_indexOk h]
  obtain ⟨hc, h16, hh, ht, hf⟩ := h
  unfold ring_buffer_is_empty
  cases hfull : s.is_full
  · simp only [Bool.false_eq_true, if_false, Bool.not_false, Bool.and_true, beq_iff_eq]
    split_ifs <;> omega
  · simp only [if_true, Bool.not_true, Bool.and_false, Bool.false_eq_true, iff_false]
    omega

theorem indexOk_init (rb : ring_buffer_t) (storage : List Byte) (N : Nat) (hN : 0 < N)
    (h16 : N ≤ 65535) : IndexOk (ring_buffer_init rb storage N) := by
  unfold IndexOk ring_buffer_init
  simp [hN, h16]

theorem indexOk_flush {s : ring_buffer_t} (hc : 0 < s.capacity) (h16 : s.capacity ≤ 65535) :
    IndexOk (ring_buffer_flush s) := by
  unfold IndexOk ring_buffer_flush
  simp [hc, h16]

theorem indexOk_write_next {s : ring_buffer_t} (h : IndexOk s) (b : Byte) :
    IndexOk (write_next s b) := by
  obtain ⟨hc, h16, hh, ht, hf⟩ := h
  unfold IndexOk write_next
  simp only
  have h1 := Nat.mod_lt (s.head + 1) hc
  have h2 := Nat.mod_lt (s.tail + 1) hc
  refine ⟨hc, h16, h1, ?_, ?_⟩
  · split_ifs <;> omega
  · cases hfull : s.is_full
    · simp
    · simp [hf hfull]

theorem indexOk_read_next {s : ring_buffer_t} (h : IndexOk s) : IndexOk (read_next s) := by
  obtain ⟨hc, h16, hh, ht, hf⟩ := h
  unfold IndexOk read_next
  simp only
  exact ⟨hc, h16, hh, Nat.mod_lt _ hc, by simp⟩

/-! ## Sequences of calls -/

theorem apply_op_invariant {s s1 : ring_buffer_t} (h : IndexOk s) (op : Op)
    (hstep : apply_op s op = some s1) :
    IndexOk s1 ∧ s1.capacity = s.capacity ∧ s1.buffer.length = s.buffer.length := by
  cases op with
  | write b =>
    simp only [apply_op, Option.map_eq_some', Prod.exists, exists_and_right,
      exists_eq_right] at hstep
    obtain ⟨r, hw⟩ := hstep
    obtain ⟨-, rfl, -⟩ := write_eq_some h.1 h.2.1 hw
    exact ⟨indexOk_write_next h b, rfl, by simp [write_next]⟩
  | read d =>
    simp only [apply_op, Option.map_eq_some', Prod.exists, exists_and_right,
      exists_eq_right] at hstep
    obtain ⟨d1, r, hr⟩ := hstep
    rcases read_eq_some h.1 h.2.1 hr with ⟨-, -, rfl, -, -⟩ | ⟨-, -, rfl, -, -⟩
    · exact ⟨h, rfl, rfl⟩
    · exact ⟨indexOk_read_next h, rfl, rfl⟩
  | flush =>
    simp only [apply_op, Option.some.injEq] at hstep
    subst hstep
    exact ⟨indexOk_flush h.1 h.2.1, rfl, rfl⟩

theorem run_invariant (ops : List Op) :
    ∀ s s1 : ring_buffer_t, IndexOk s → run s ops = some s1 →
      IndexOk s1 ∧ s1.capacity = s.capacity ∧ s1.buffer.length = s.buffer.length := by
  induction ops with
  | nil =>
    intro s s1 h hrun
    simp only [run, Option.some.injEq] at hrun
    subst hrun
    exact ⟨h, rfl, rfl⟩
  | cons op ops ih =>
    intro s s1 h hrun
    simp only [run, Option.bind_eq_some] at hrun
    obtain ⟨s2, hstep, hrest⟩ := hrun
    obtain ⟨h2, hcap2, hlen2⟩ := apply_op_invariant h op hstep
    obtain ⟨h1, hcap1, hlen1⟩ := ih s2 s1 h2 hrest
    exact ⟨h1, hcap1.trans hcap2, hlen1.trans hlen2⟩

theorem reachable_invariant {storage : List Byte} {N : Nat} {s : ring_buffer_t}
    (hN : 0 < N) (h16 : N ≤ 65535) (h : Reachable storage N s) :
    IndexOk s ∧ s.capacity = N ∧ s.buffer.length = storage.length := by
  obtain ⟨rb, ops, hrun⟩ := h
  exact run_invariant ops _ s (indexOk_init rb storage N hN h16) hrun

theorem reachable_wf {storage : List Byte} {N : Nat} {s : ring_buffer_t}
    (hN : 0 < N) (h16 : N ≤ 65535) (hlen : storage.length = N) (h : Reachable storage N s) :
    WellFormed s := by
  obtain ⟨hok, hcap, hl⟩ := reachable_invariant hN h16 h
  exact wf_of_indexOk hok (by rw [hl, hlen, hcap])

/-! ## The claims on initialisation, count and capacity -/

/-- C11: initialisation.  For every storage and every capacity, whatever the
struct held before, `ring_buffer_init` yields a struct bound to that storage,
with its bytes as they were, and to that capacity, with `head = 0`,
`tail = 0` and the full flag false, on which `ring_buffer_is_empty` returns
`true`, `ring_buffer_is_full` returns `false` and `ring_buffer_count`
returns 0. -/
theorem C11_init_state (rb : ring_buffer_t) (storage : List Byte) (capacity : Nat) :
    (ring_buffer_init rb storage capacity).buffer = storage ∧
      (ring_buffer_init rb storage capacity).capacity = capacity ∧
      (ring_buffer_init rb storage capacity).head = 0 ∧
      (ring_buffer_init rb storage capacity).tail = 0 ∧
      (ring_buffer_init rb storage capacity).is_full = false ∧
      ring_buffer_is_empty (ring_buffer_init rb storage capacity) = true ∧
      ring_buffer_is_full (ring_buffer_init rb storage capacity) = false ∧
      ring_buffer_count (ring_buffer_init rb storage capacity) = 0 :=
  ⟨rfl, rfl, rfl, rfl, rfl, rfl, rfl, rfl⟩

/-- C12: count is the occupied-slot count, computed exactly.  For every
well-formed state (`0 < capacity ≤ 65535`, `head < capacity`,
`tail < capacity`, full implies `head = tail`) the `uint16_t` result of
`ring_buffer_count`, read as an integer, is `capacity` if full, `head - tail`
if not full and `head ≥ tail`, and `capacity - tail + head` otherwise, with
no wrap-around; it is `(head - tail) mod capacity` whenever the buffer is not
full, and it lies between 0 and `capacity`.  The embedded function returns
the number only: the source assigns to no field. -/
theorem C12_count_exact (s : ring_buffer_t) (hc : 0 < s.capacity) (h16 : s.capacity ≤ 65535)
    (hh : s.head < s.capacity) (ht : s.tail < s.capacity)
    (hf : s.is_full = true → s.head = s.tail) :
    ((ring_buffer_count s : Int) =
      if s.is_full = true then (s.capacity : Int)
      else if s.head ≥ s.tail then (s.head : Int) - (s.tail : Int)
      else (s.capacity : Int) - (s.tail : Int) + (s.head : Int)) ∧
    (s.is_full = false →
      (ring_buffer_count s : Int) = ((s.head : Int) - (s.tail : Int)) % (s.capacity : Int)) ∧
    0 ≤ ring_buffer_count s ∧ ring_buffer_count s ≤ s.capacity := by
  have hcnt := count_of_indexOk ⟨hc, h16, hh, ht, hf⟩
  refine ⟨?_, ?_, Nat.zero_le _, ?_⟩
  · rw [hcnt]
    split_ifs <;> omega
  · intro hnf
    rw [hcnt, if_neg (by simp [hnf])]
    by_cases hle : s.tail ≤ s.head
    · rw [if_pos hle, Int.emod_eq_of_lt (by omega) (by omega)]
      omega
    · rw [if_neg hle, ← Int.add_emod_self, Int.emod_eq_of_lt (by omega) (by omega)]
      omega
  · rw [hcnt]
    split_ifs <;> omega

theorem C12_count_exact_witness :
    ((ring_buffer_count ⟨[1, 2, 3, 4, 5], 1, 3, 5, false⟩ : Int) = (5 : Int) - 3 + 1) ∧
      (ring_buffer_count ⟨[1, 2, 3, 4, 5], 1, 3, 5, false⟩ : Int) = ((1 : Int) - 3) % 5 ∧
      0 ≤ ring_buffer_count ⟨[1, 2, 3, 4, 5], 1, 3, 5, false⟩ ∧
      ring_buffer_count ⟨[1, 2, 3, 4, 5], 1, 3, 5, false⟩ ≤ 5 :=
  ⟨(C12_count_exact ⟨[1, 2, 3, 4, 5], 1, 3, 5, false⟩ (by decide) (by decide) (by decide)
      (by decide) (by decide)).1,
    (C12_count_exact ⟨[1, 2, 3, 4, 5], 1, 3, 5, false⟩ (by decide) (by decide) (by decide)
      (by decide) (by decide)).2.1 rfl,
    (C12_count_exact ⟨[1, 2, 3, 4, 5], 1, 3, 5, false⟩ (by decide) (by decide) (by decide)
      (by decide) (by decide)).2.2.1,
    (C12_count_exact ⟨[1, 2, 3, 4, 5], 1, 3, 5, false⟩ (by decide) (by decide) (by decide)
      (by decide) (by decide)).2.2.2⟩

theorem write_frame {s s1 : ring_buffer_t} {b : Byte} {r : Bool}
    (h : ring_buffer_write s b = some (s1, r)) :
    s1.capacity = s.capacity ∧ s1.buffer = s.buffer.set s.head b := by
  unfold ring_buffer_write at h
  have key : ∀ (t : Option Nat) (full : Bool),
      (t.bind fun y => (store s.buffer s.head b).bind fun buffer =>
        (advance s.head s.capacity).bind fun head =>
          some (({ buffer := buffer, head := head, tail := y, capacity := s.capacity,
                   is_full := if head = y then true else full } : ring_buffer_t), true))
        = some (s1, r) →
      s1.capacity = s.capacity ∧ s1.buffer = s.buffer.set s.head b := by
    intro t full ht
    simp only [Option.bind_eq_some, Option.some.injEq, Prod.mk.injEq] at ht
    obtain ⟨tail, -, buffer, hstore, head, -, hs1, -⟩ := ht
    unfold store at hstore
    split_ifs at hstore
    simp only [Option.some.injEq] at hstore
    subst hs1 hstore
    exact ⟨rfl, rfl⟩
  cases hf : s.is_full
  · rw [hf] at h
    exact key (some s.tail) false h
  · rw [hf] at h
    exact key (advance s.tail s.capacity) true h

theorem read_frame {s s1 : ring_buffer_t} {d d1 : Byte} {r : Bool}
    (h : ring_buffer_read s d = some (s1, d1, r)) :
    s1.capacity = s.capacity ∧ s1.buffer = s.buffer := by
  unfold ring_buffer_read at h
  split_ifs at h
  · simp only [Option.some.injEq, Prod.mk.injEq] at h
    rw [← h.1]
    exact ⟨rfl, rfl⟩
  · simp only [Option.bind_eq_bind, Option.pure_def, Option.bind_eq_some, Option.some.injEq,
      Prod.mk.injEq] at h
    obtain ⟨d2, -, tail, -, hs1, -⟩ := h
    subst hs1
    exact ⟨rfl, rfl⟩

theorem apply_op_frame {s s1 : ring_buffer_t} (op : Op) (hstep : apply_op s op = some s1) :
    s1.capacity = s.capacity ∧ s1.buffer.length = s.buffer.length := by
  cases op with
  | write b =>
    simp only [apply_op, Option.map_eq_some', Prod.exists, exists_and_right,
      exists_eq_right] at hstep
    obtain ⟨r, hw⟩ := hstep
    obtain ⟨hcap, hbuf⟩ := write_frame hw
    exact ⟨hcap, by rw [hbuf, List.length_set]⟩
  | read d =>
    simp only [apply_op, Option.map_eq_some', Prod.exists, exists_and_right,
      exists_eq_right] at hstep
    obtain ⟨d1, r, hr⟩ := hstep
    obtain ⟨hcap, hbuf⟩ := read_frame hr
    exact ⟨hcap, by rw [hbuf]⟩
  | flush =>
    simp only [apply_op, Option.some.injEq] at hstep
    subst hstep
    exact ⟨rfl, rfl⟩

theorem run_frame (ops : List Op) :
    ∀ s s1 : ring_buffer_t, run s ops = some s1 →
      s1.capacity = s.capacity ∧ s1.buffer.length = s.buffer.length := by
  induction ops with
  | nil =>
    intro s s1 hrun
    simp only [run, Option.some.injEq] at hrun
    subst hrun
    exact ⟨rfl, rfl⟩
  | cons op ops ih =>
    intro s s1 hrun
    simp only [run, Option.bind_eq_some] at hrun
    obtain ⟨s2, hstep, hrest⟩ := hrun
    obtain ⟨hcap2, hlen2⟩ := apply_op_frame op hstep
    obtain ⟨hcap1, hlen1⟩ := ih s2 s1 hrest
    exact ⟨hcap1.trans hcap2, hlen1.trans hlen2⟩

/-- C13: capacity is immutable after initialisation.  For every state and
every argument, a call of `ring_buffer_write`, of `ring_buffer_read`
(whether it returns `true` or `false`) or of `ring_buffer_flush` leaves
`capacity` as it was and the struct on the same storage: write changes the
storage by its one store at `head` only, read and flush not at all.  Hence
every state reached from `ring_buffer_init` on `storage` with capacity `N`
has capacity `N` and a storage of the length of `storage`. -/
theorem C13_capacity_immutable (s : ring_buffer_t) :
    (∀ b s1 r, ring_buffer_write s b = some (s1, r) →
      s1.capacity = s.capacity ∧ s1.buffer = s.buffer.set s.head b ∧
        s1.buffer.length = s.buffer.length) ∧
    (∀ d s1 d1 r, ring_buffer_read s d = some (s1, d1, r) →
      s1.capacity = s.capacity ∧ s1.buffer = s.buffer) ∧
    ((ring_buffer_flush s).capacity = s.capacity ∧ (ring_buffer_flush s).buffer = s.buffer) ∧
    (∀ (storage : List Byte) (N : Nat) (s1 : ring_buffer_t), Reachable storage N s1 →
      s1.capacity = N ∧ s1.buffer.length = storage.length) := by
  refine ⟨?_, ?_, ⟨rfl, rfl⟩, ?_⟩
  · intro b s1 r h
    obtain ⟨hcap, hbuf⟩ := write_frame h
    exact ⟨hcap, hbuf, by rw [hbuf, List.length_set]⟩
  · intro d s1 d1 r h
    exact read_frame h
  · intro storage N s1 hreach
    obtain ⟨rb, ops, hrun⟩ := hreach
    exact run_frame ops _ s1 hrun

theorem C13_capacity_immutable_witness :
    (∃ s1 r, ring_buffer_write ⟨[1, 2, 3], 2, 2, 3, true⟩ 9 = some (s1, r) ∧
      s1.capacity = 3 ∧ s1.buffer = [1, 2, 9] ∧ s1.buffer.length = 3) ∧
    (∃ s1 d1 r, ring_buffer_read ⟨[1, 2, 3], 2, 2, 3, true⟩ 0 = some (s1, d1, r) ∧
      s1.capacity = 3 ∧ s1.buffer = [1, 2, 3]) ∧
    (∃ s1, Reachable [0, 0, 0] 3 s1 ∧ s1.capacity = 3 ∧ s1.buffer.length = 3) :=
  ⟨⟨⟨[1, 2, 9], 0, 0, 3, true⟩, true, by decide,
      (C13_capacity_immutable ⟨[1, 2, 3], 2, 2, 3, true⟩).1 9 ⟨[1, 2, 9], 0, 0, 3, true⟩ true
        (by decide)⟩,
    ⟨⟨[1, 2, 3], 2, 0, 3, false⟩, 3, true, by decide,
      (C13_capacity_immutable ⟨[1, 2, 3], 2, 2, 3, true⟩).2.1 0 ⟨[1, 2, 3], 2, 0, 3, false⟩ 3
        true (by decide)⟩,
    ⟨⟨[7, 8, 0], 2, 1, 3, false⟩,
      ⟨⟨[], 0, 0, 0, false⟩, [Op.write 7, Op.write 8, Op.read 0], by decide⟩,
      (C13_capacity_immutable ⟨[], 0, 0, 0, false⟩).2.2.2 [0, 0, 0] 3
        ⟨[7, 8, 0], 2, 1, 3, false⟩
        ⟨⟨[], 0, 0, 0, false⟩, [Op.write 7, Op.write 8, Op.read 0], by decide⟩⟩⟩

/-! ## The claims on the invariants of reachable states -/

/-- C14: index-range invariant.  For every capacity `N` with
`0 < N ≤ 65535`: `head < capacity` and `tail < capacity` hold after
`ring_buffer_init`; a call of `ring_buffer_write`, `ring_buffer_read` or
`ring_buffer_flush` on a state of capacity `N` where they hold leads to a
state where they hold; so they hold in every reachable state.  The advance
`(i + 1) % capacity` of an index `i < N` does not wrap in 16 bits.  And on a
storage of length `N` both the write slot `head` and the read slot `tail` of
a reachable state lie inside the storage, so that every write and every read
there is defined. -/
theorem C14_index_range (N : Nat) (hN : 0 < N) (h16 : N ≤ 65535) :
    (∀ (rb : ring_buffer_t) (storage : List Byte),
      (ring_buffer_init rb storage N).head < (ring_buffer_init rb storage N).capacity ∧
        (ring_buffer_init rb storage N).tail < (ring_buffer_init rb storage N).capacity) ∧
    (∀ s : ring_buffer_t, s.capacity = N → s.head < s.capacity → s.tail < s.capacity →
      (∀ b s1 r, ring_buffer_write s b = some (s1, r) →
        s1.head < s1.capacity ∧ s1.tail < s1.capacity) ∧
      (∀ d s1 d1 r, ring_buffer_read s d = some (s1, d1, r) →
        s1.head < s1.capacity ∧ s1.tail < s1.capacity) ∧
      (ring_buffer_flush s).head < (ring_buffer_flush s).capacity ∧
      (ring_buffer_flush s).tail < (ring_buffer_flush s).capacity) ∧
    (∀ (storage : List Byte) (s : ring_buffer_t), Reachable storage N s →
      s.head < s.capacity ∧ s.tail < s.capacity) ∧
    (∀ i, i < N → i + 1 < 65536 ∧ advance i N = some ((i + 1) % N) ∧ (i + 1) % N < N) ∧
    (∀ (storage : List Byte) (s : ring_buffer_t), storage.length = N →
      Reachable storage N s →
        s.head < s.buffer.length ∧ s.tail < s.buffer.length ∧
        (∀ b, ∃ s1, ring_buffer_write s b = some (s1, true)) ∧
        (∀ d, ∃ s1 d1 r, ring_buffer_read s d = some (s1, d1, r))) := by
  refine ⟨?_, ?_, ?_, ?_, ?_⟩
  · intro rb storage
    exact ⟨hN, hN⟩
  · intro s hcap hh ht
    have hc : 0 < s.capacity := by rw [hcap]; exact hN
    have hle : s.capacity ≤ 65535 := by rw [hcap]; exact h16
    refine ⟨?_, ?_, hc, hc⟩
    · intro b s1 r hw
      obtain ⟨-, rfl, -⟩ := write_eq_some hc hle hw
      unfold write_next
      simp only
      refine ⟨Nat.mod_lt _ hc, ?_⟩
      split_ifs
      · exact Nat.mod_lt _ hc
      · exact ht
    · intro d s1 d1 r hr
      rcases read_eq_some hc hle hr with ⟨-, -, rfl, -, -⟩ | ⟨-, -, rfl, -, -⟩
      · exact ⟨hh, ht⟩
      · exact ⟨hh, Nat.mod_lt _ hc⟩
  · intro storage s hreach
    obtain ⟨hok, -, -⟩ := reachable_invariant hN h16 hreach
    exact ⟨hok.2.2.1, hok.2.2.2.1⟩
  · intro i hi
    exact ⟨by omega, advance_eq hN h16, Nat.mod_lt _ hN⟩
  · intro storage s hlen hreach
    have hwf := reachable_wf hN h16 hlen hreach
    obtain ⟨hc, hle, hh, ht, -, hl⟩ := hwf
    have hh1 : s.head < s.buffer.length := by rw [hl]; exact hh
    have ht1 : s.tail < s.buffer.length := by rw [hl]; exact ht
    refine ⟨hh1, ht1, ?_, ?_⟩
    · intro b
      exact ⟨_, write_defined s b hc hle hh1⟩
    · intro d
      by_cases he : s.head = s.tail ∧ s.is_full = false
      · refine ⟨s, d, false, ?_⟩
        unfold ring_buffer_read
        simp [he.1, he.2]
      · exact ⟨_, _, _, read_defined s d hc hle ht1 he⟩

theorem C14_index_range_witness :
    0 < 3 ∧ 3 ≤ 65535 ∧
      Reachable [0, 0, 0] 3 ⟨[7, 8, 9], 1, 1, 3, true⟩ ∧
      (⟨[7, 8, 9], 1, 1, 3, true⟩ : ring_buffer_t).head < 3 ∧
      (⟨[7, 8, 9], 1, 1, 3, true⟩ : ring_buffer_t).tail < 3 ∧
      (2 + 1 < 65536 ∧ advance 2 3 = some ((2 + 1) % 3) ∧ (2 + 1) % 3 < 3) :=
  ⟨by decide, by decide,
    ⟨⟨[], 5, 6, 7, true⟩, [Op.write 6, Op.write 8, Op.write 9, Op.write 7], by decide⟩,
    ((C14_index_range 3 (by decide) (by decide)).2.2.1 [0, 0, 0] ⟨[7, 8, 9], 1, 1, 3, true⟩
      ⟨⟨[], 5, 6, 7, true⟩, [Op.write 6, Op.write 8, Op.write 9, Op.write 7], by decide⟩).1,
    ((C14_index_range 3 (by decide) (by decide)).2.2.1 [0, 0, 0] ⟨[7, 8, 9], 1, 1, 3, true⟩
      ⟨⟨[], 5, 6, 7, true⟩, [Op.write 6, Op.write 8, Op.write 9, Op.write 7], by decide⟩).2,
    (C14_index_range 3 (by decide) (by decide)).2.2.2.1 2 (by decide)⟩

/-- C15: head/tail coincidence invariant.  In every state reachable from
`ring_buffer_init` with a capacity `N`, `0 < N ≤ 65535`, by any sequence of
write, read and flush, the full flag being set implies `head = tail`, and
`head = tail` holds if and only if the buffer is empty
(`ring_buffer_is_empty` true and count 0) or full (`ring_buffer_is_full`
true and count equal to the capacity). -/
theorem C15_head_tail_coincidence (N : Nat) (hN : 0 < N) (h16 : N ≤ 65535)
    (storage : List Byte) (s : ring_buffer_t) (h : Reachable storage N s) :
    (s.is_full = true → s.head = s.tail) ∧
    (s.head = s.tail ↔
      (ring_buffer_is_empty s = true ∧ ring_buffer_count s = 0) ∨
      (ring_buffer_is_full s = true ∧ ring_buffer_count s = s.capacity)) := by
  obtain ⟨hok, -, -⟩ := reachable_invariant hN h16 h
  have hzero := count_eq_zero_iff_of_indexOk hok
  have hcap := count_eq_capacity_iff_of_indexOk hok
  refine ⟨hok.2.2.2.2, ?_, ?_⟩
  · intro heq
    cases hfull : s.is_full
    · left
      have hempty : ring_buffer_is_empty s = true := by
        unfold ring_buffer_is_empty
        simp [heq, hfull]
      exact ⟨hempty, hzero.2 hempty⟩
    · right
      exact ⟨hfull, hcap.2 hfull⟩
  · rintro (⟨hempty, -⟩ | ⟨hfull, -⟩)
    · unfold ring_buffer_is_empty at hempty
      simp only [Bool.and_eq_true, beq_iff_eq] at hempty
      exact hempty.1
    · exact hok.2.2.2.2 hfull

theorem C15_head_tail_coincidence_witness :
    0 < 3 ∧ 3 ≤ 65535 ∧ Reachable [0, 0, 0] 3 ⟨[7, 8, 9], 1, 1, 3, true⟩ ∧
      ((1 : Nat) = 1 ↔
        (ring_buffer_is_empty ⟨[7, 8, 9], 1, 1, 3, true⟩ = true ∧
          ring_buffer_count ⟨[7, 8, 9], 1, 1, 3, true⟩ = 0) ∨
        (ring_buffer_is_full ⟨[7, 8, 9], 1, 1, 3, true⟩ = true ∧
          ring_buffer_count ⟨[7, 8, 9], 1, 1, 3, true⟩ = 3)) :=
  ⟨by decide, by decide,
    ⟨⟨[], 5, 6, 7, true⟩, [Op.write 6, Op.write 8, Op.write 9, Op.write 7], by decide⟩,
    (C15_head_tail_coincidence 3 (by decide) (by decide) [0, 0, 0]
      ⟨[7, 8, 9], 1, 1, 3, true⟩
      ⟨⟨[], 5, 6, 7, true⟩, [Op.write 6, Op.write 8, Op.write 9, Op.write 7], by decide⟩).2⟩

/-- C16: the three queries agree.  In every state reachable from
`ring_buffer_init` with a capacity `N`, `0 < N ≤ 65535`,
`ring_buffer_is_full` returns `true` if and only if `ring_buffer_count`
returns the capacity, `ring_buffer_is_empty` returns `true` if and only if
`ring_buffer_count` returns 0, and the two are never both true. -/
theorem C16_queries_agree (N : Nat) (hN : 0 < N) (h16 : N ≤ 65535)
    (storage : List Byte) (s : ring_buffer_t) (h : Reachable storage N s) :
    (ring_buffer_is_full s = true ↔ ring_buffer_count s = s.capacity) ∧
    (ring_buffer_is_empty s = true ↔ ring_buffer_count s = 0) ∧
    ¬ (ring_buffer_is_empty s = true ∧ ring_buffer_is_full s = true) := by
  obtain ⟨hok, -, -⟩ := reachable_invariant hN h16 h
  refine ⟨(count_eq_capacity_iff_of_indexOk hok).symm,
    (count_eq_zero_iff_of_indexOk hok).symm, ?_⟩
  rintro ⟨hempty, hfull⟩
  unfold ring_buffer_is_empty at hempty
  unfold ring_buffer_is_full at hfull
  simp [hfull] at hempty

theorem C16_queries_agree_witness :
    0 < 2 ∧ 2 ≤ 65535 ∧ Reachable [0, 0] 2 ⟨[4, 5], 0, 1, 2, false⟩ ∧
      (ring_buffer_is_full ⟨[4, 5], 0, 1, 2, false⟩ = true ↔
        ring_buffer_count ⟨[4, 5], 0, 1, 2, false⟩ = 2) ∧
      (ring_buffer_is_empty ⟨[4, 5], 0, 1, 2, false⟩ = true ↔
        ring_buffer_count ⟨[4, 5], 0, 1, 2, false⟩ = 0) ∧
      ¬ (ring_buffer_is_empty ⟨[4, 5], 0, 1, 2, false⟩ = true ∧
        ring_buffer_is_full ⟨[4, 5], 0, 1, 2, false⟩ = true) :=
  ⟨by decide, by decide,
    ⟨⟨[], 0, 0, 0, false⟩, [Op.write 4, Op.write 5, Op.read 0], by decide⟩,
    C16_queries_agree 2 (by decide) (by decide) [0, 0] ⟨[4, 5], 0, 1, 2, false⟩
      ⟨⟨[], 0, 0, 0, false⟩, [Op.write 4, Op.write 5, Op.read 0], by decide⟩⟩

/-! ## The claims on the write step, the count and the queue -/

/-- C17: the write step follows the specified algorithm.  For every state
reachable from `ring_buffer_init` with a capacity `N`, `0 < N ≤ 65535`, and
every byte `b`, a call of `ring_buffer_write` (1) sets `tail` to
`(tail + 1) % capacity` if the buffer was full and leaves it otherwise, (2)
stores `b` at `storage[head]` of the old `head` and changes no other storage
byte, (3) sets `head` to `(head + 1) % capacity` and (4) leaves the full
flag true if and only if the new `head` equals the new `tail`; it returns
`true`.  On a storage of length `N` the call is defined. -/
theorem C17_write_step (N : Nat) (hN : 0 < N) (h16 : N ≤ 65535) (storage : List Byte)
    (s : ring_buffer_t) (h : Reachable storage N s) (b : Byte) :
    (∀ s1 r, ring_buffer_write s b = some (s1, r) →
      r = true ∧
      s1.tail = (if s.is_full = true then (s.tail + 1) % s.capacity else s.tail) ∧
      s1.buffer[s.head]? = some b ∧
      (∀ i, i ≠ s.head → s1.buffer[i]? = s.buffer[i]?) ∧
      s1.buffer.length = s.buffer.length ∧
      s1.head = (s.head + 1) % s.capacity ∧
      (s1.is_full = true ↔ s1.head = s1.tail)) ∧
    (storage.length = N → ∃ s1, ring_buffer_write s b = some (s1, true)) := by
  obtain ⟨hok, hcap, hl⟩ := reachable_invariant hN h16 h
  obtain ⟨hc, hle, hh, ht, hf⟩ := hok
  constructor
  · intro s1 r hw
    obtain ⟨hh1, rfl, rfl⟩ := write_eq_some hc hle hw
    refine ⟨rfl, rfl, ?_, ?_, ?_, rfl, ?_⟩
    · simp only [write_next]
      rw [List.getElem?_set_self hh1]
    · intro i hi
      simp only [write_next]
      rw [List.getElem?_set_ne (Ne.symm hi)]
    · simp only [write_next, List.length_set]
    · simp only [write_next]
      cases hfull : s.is_full
      · simp
      · simp [hf hfull]
  · intro hlen
    exact ⟨_, write_defined s b hc hle (by rw [hl, hlen, ← hcap]; exact hh)⟩

theorem C17_write_step_witness :
    0 < 3 ∧ 3 ≤ 65535 ∧ Reachable [0, 0, 0] 3 ⟨[7, 8, 9], 1, 1, 3, true⟩ ∧
      ([0, 0, 0] : List Byte).length = 3 ∧
      ∃ s1, ring_buffer_write ⟨[7, 8, 9], 1, 1, 3, true⟩ 5 = some (s1, true) ∧
        s1.tail = (1 + 1) % 3 ∧ s1.buffer[1]? = some 5 ∧ s1.head = (1 + 1) % 3 ∧
        (s1.is_full = true ↔ s1.head = s1.tail) :=
  ⟨by decide, by decide,
    ⟨⟨[], 5, 6, 7, true⟩, [Op.write 6, Op.write 8, Op.write 9, Op.write 7], by decide⟩,
    rfl,
    ⟨⟨[7, 5, 9], 2, 2, 3, true⟩, by decide,
      ((C17_write_step 3 (by decide) (by decide) [0, 0, 0] ⟨[7, 8, 9], 1, 1, 3, true⟩
        ⟨⟨[], 5, 6, 7, true⟩, [Op.write 6, Op.write 8, Op.write 9, Op.write 7], by decide⟩
        5).1 ⟨[7, 5, 9], 2, 2, 3, true⟩ true (by decide)).2.1,
      by decide, by decide, by decide⟩⟩

/-- C18: count moves by exactly one per operation.  For every well-formed
state `s` (a `capacity > 0` that a `uint16_t` holds, `head < capacity`,
`tail < capacity`, full implies `head = tail`, storage as long as the
capacity): a read that returns `true` leaves `count` one lower, strictly
below the capacity, and on a non-empty `s` the read is defined and returns
`true`; a write is defined and returns `true`, and it leaves `count` one
higher when `s` is not full and at the capacity, where it was, when `s` is
full. -/
theorem C18_count_moves_by_one (s : ring_buffer_t) (hc : 0 < s.capacity)
    (h16 : s.capacity ≤ 65535) (hh : s.head < s.capacity) (ht : s.tail < s.capacity)
    (hf : s.is_full = true → s.head = s.tail) (hlen : s.buffer.length = s.capacity) :
    (∀ d s1 d1, ring_buffer_read s d = some (s1, d1, true) →
      ring_buffer_count s1 + 1 = ring_buffer_count s ∧
      ring_buffer_count s1 = ring_buffer_count s - 1 ∧
      ring_buffer_count s1 < s.capacity) ∧
    (¬ (s.head = s.tail ∧ s.is_full = false) →
      ∀ d, ∃ s1 d1, ring_buffer_read s d = some (s1, d1, true)) ∧
    (∀ b, ∃ s1, ring_buffer_write s b = some (s1, true) ∧
      (s.is_full = false → ring_buffer_count s1 = ring_buffer_count s + 1) ∧
      (s.is_full = true →
        ring_buffer_count s1 = ring_buffer_count s ∧ ring_buffer_count s = s.capacity)) := by
  have hwf : WellFormed s := ⟨hc, h16, hh, ht, hf, hlen⟩
  have hle := count_le_of_wf hwf
  refine ⟨?_, ?_, ?_⟩
  · intro d s1 d1 hr
    rcases read_eq_some hc h16 hr with ⟨-, -, -, -, hfalse⟩ | ⟨hne, -, rfl, -, -⟩
    · exact absurd hfalse (by decide)
    · have hcount : ring_buffer_count s ≠ 0 := by
        intro hzero
        have hempty := (count_eq_zero_iff hwf).1 hzero
        unfold ring_buffer_is_empty at hempty
        simp only [Bool.and_eq_true, beq_iff_eq, Bool.not_eq_true'] at hempty
        exact hne hempty
      have hstep := count_read_next hwf hcount
      exact ⟨by omega, hstep, by omega⟩
  · intro hne d
    exact ⟨_, _, read_defined s d hc h16 (by rw [hlen]; exact ht) hne⟩
  · intro b
    refine ⟨_, write_defined s b hc h16 (by rw [hlen]; exact hh), ?_, ?_⟩
    · intro hnf
      rw [count_write_next hwf b, if_neg (by simp [hnf])]
    · intro hfull
      rw [count_write_next hwf b, if_pos hfull]
      have := (count_eq_capacity_iff hwf).2 hfull
      exact ⟨this.symm, this⟩

theorem C18_count_moves_by_one_witness :
    (∃ s1 d1, ring_buffer_read ⟨[7, 8, 9], 1, 1, 3, true⟩ 0 = some (s1, d1, true) ∧
      ring_buffer_count s1 + 1 = ring_buffer_count ⟨[7, 8, 9], 1, 1, 3, true⟩) ∧
    (∃ s1, ring_buffer_write ⟨[7, 8, 9], 1, 1, 3, true⟩ 5 = some (s1, true) ∧
      (ring_buffer_count s1 = ring_buffer_count ⟨[7, 8, 9], 1, 1, 3, true⟩ ∧
        ring_buffer_count ⟨[7, 8, 9], 1, 1, 3, true⟩ = 3)) :=
  ⟨⟨⟨[7, 8, 9], 1, 2, 3, false⟩, 8, by decide,
      ((C18_count_moves_by_one ⟨[7, 8, 9], 1, 1, 3, true⟩ (by decide) (by decide) (by decide)
        (by decide) (by decide) rfl).1 0 ⟨[7, 8, 9], 1, 2, 3, false⟩ 8 (by decide)).1⟩,
    ⟨⟨[7, 5, 9], 2, 2, 3, true⟩, by decide, by decide⟩⟩

/-- C19: refinement of a bounded FIFO queue.  With `content s` the list of
the `ring_buffer_count s` bytes `storage[tail]`,
`storage[(tail + 1) % capacity]`, ... of a well-formed state `s`: the content
after `ring_buffer_init` and after `ring_buffer_flush` is the empty list; a
write of `b` is defined, returns `true` and leaves `content s ++ [b]` when
the content is shorter than the capacity and the content without its first
element followed by `b` when it is as long as the capacity; a read fails and
leaves the state as it was when the content is empty, and otherwise returns
the first element and leaves the rest; `ring_buffer_count s` is the length
of the content; and init (with a capacity `N`, `0 < N ≤ 65535`, on a storage
of length `N`), flush, write and read lead to well-formed states. -/
theorem C19_fifo_refinement (s : ring_buffer_t) (h : WellFormed s) :
    (∀ (rb : ring_buffer_t) (storage : List Byte) (N : Nat),
      content (ring_buffer_init rb storage N) = [] ∧
      (0 < N → N ≤ 65535 → storage.length = N →
        WellFormed (ring_buffer_init rb storage N))) ∧
    (content (ring_buffer_flush s) = [] ∧ WellFormed (ring_buffer_flush s)) ∧
    (∀ b, ∃ s1, ring_buffer_write s b = some (s1, true) ∧ WellFormed s1 ∧
      ((content s).length < s.capacity → content s1 = content s ++ [b]) ∧
      ((content s).length = s.capacity → content s1 = (content s).tail ++ [b])) ∧
    (∀ d, (content s = [] → ring_buffer_read s d = some (s, d, false)) ∧
      (∀ x xs, content s = x :: xs →
        ∃ s1, ring_buffer_read s d = some (s1, x, true) ∧ WellFormed s1 ∧
          content s1 = xs)) ∧
    ring_buffer_count s = (content s).length := by
  have hlen := h.2.2.2.2.2
  refine ⟨?_, ⟨rfl, wf_flush s h.1 h.2.1 hlen⟩, ?_, ?_, (length_content s).symm⟩
  · intro rb storage N
    exact ⟨rfl, fun hN h16 hl => wf_init rb storage N hN h16 hl⟩
  · intro b
    refine ⟨write_next s b, write_defined s b h.1 h.2.1 (by rw [hlen]; exact h.2.2.1),
      wf_write_next h b, ?_, ?_⟩
    · intro hlt
      rw [content_write_next h b, keepLast_of_length_le]
      rw [List.length_append, List.length_singleton]
      omega
    · intro heq
      have hne : content s ≠ [] := by
        intro hnil
        rw [hnil] at heq
        have := h.1
        simp only [List.length_nil] at heq
        omega
      rw [content_write_next h b]
      unfold keepLast
      rw [List.length_append, List.length_singleton, heq, Nat.add_sub_cancel_left,
        List.drop_one, List.tail_append_of_ne_nil hne]
  · intro d
    constructor
    · intro hnil
      have hempty := empty_of_content_eq_nil h hnil
      unfold ring_buffer_is_empty at hempty
      unfold ring_buffer_read
      rw [if_pos hempty]
    · intro x xs hcons
      have hcount : ring_buffer_count s ≠ 0 := by
        rw [← length_content, hcons]
        simp
      have hnonempty : ¬ (s.head = s.tail ∧ s.is_full = false) := by
        intro hem
        apply hcount
        rw [count_eq_zero_iff h]
        unfold ring_buffer_is_empty
        simp [hem.1, hem.2]
      have ht : s.tail < s.buffer.length := by rw [hlen]; exact h.2.2.2.1
      have hstep := content_read_next h hcount
      rw [hcons, slot_zero h ht] at hstep
      simp only [List.cons.injEq] at hstep
      refine ⟨read_next s, ?_, wf_read_next h, hstep.2.symm⟩
      rw [hstep.1]
      exact read_defined s d h.1 h.2.1 ht hnonempty

theorem C19_fifo_refinement_witness :
    WellFormed ⟨[7, 8, 9], 1, 1, 3, true⟩ ∧ content ⟨[7, 8, 9], 1, 1, 3, true⟩ = [8, 9, 7] ∧
      (∃ s1, ring_buffer_write ⟨[7, 8, 9], 1, 1, 3, true⟩ 5 = some (s1, true) ∧
        WellFormed s1 ∧
        (([8, 9, 7] : List Byte).length < 3 → content s1 = [8, 9, 7] ++ [5]) ∧
        (([8, 9, 7] : List Byte).length = 3 → content s1 = ([8, 9, 7] : List Byte).tail ++ [5])) ∧
      (∃ s1, ring_buffer_read ⟨[7, 8, 9], 1, 1, 3, true⟩ 0 = some (s1, 8, true) ∧
        WellFormed s1 ∧ content s1 = [9, 7]) :=
  ⟨by decide, by decide,
    (C19_fifo_refinement ⟨[7, 8, 9], 1, 1, 3, true⟩ (by decide)).2.2.1 5,
    ((C19_fifo_refinement ⟨[7, 8, 9], 1, 1, 3, true⟩ (by decide)).2.2.2.1 0).2 8 [9, 7]
      (by decide)⟩

end RingBuffer
